import Mathlib

/-!
# Verification of the sorted telemetry buffer in `PlotSeries.js`

Shallow embedding of the buffer core of
`src/plugins/plot/src/plot/PlotSeries.js`: the `data` array of points kept
sorted by the x-extractor value, the running min/max statistics, and the
change events emitted by `add` / `remove` / `reset` /
`purgeRecordsOutsideRange`.

Modelling conventions:
* Numeric x/y values are modelled as `Int` (the algorithms use only
  comparison and subtraction, which are exact).  The x/y extractors
  (`getXVal` / `getYVal`, bound from the configured formats' `parse`) read
  the corresponding field of a point.
* A JS object's reference identity is modelled by an `id` field, so that
  two points with equal x/y values can still be distinct (as two distinct
  JS objects are); `Array.prototype.indexOf`'s `===` comparison becomes
  decidable equality of `Point`.
* The `_limit` annotation written by `add` (`point._limit =
  this.evaluate(point)`) calls the external limit evaluator and mutates the
  point in place; it affects neither the point's identity nor its x/y
  values, so it is not represented.
* `JS undefined` propagating out of an out-of-bounds array read is
  modelled with `Option`; a comparison of an extracted value against the
  extraction of `undefined` (which is never a number) is modelled as a
  comparison of `Option Int` values, which is false when one side is
  `none`.
* Event emission is modelled by an `events` trace carried in the state and
  appended to by each `emit`.
-/

/-- A telemetry datum.  Only the x field (sort key) and the y field
(statistics key) are read by the buffer; `id` stands for JS object
identity. -/
structure Point where
  x : Int
  y : Int
  id : Nat
deriving DecidableEq, Repr

/-- `this.getXVal`, the x-extractor bound from the configured x-format's
`parse`. -/
def getXVal (p : Point) : Int := p.x

/-- `this.getYVal`, the y-extractor bound from the configured y-format's
`parse`. -/
def getYVal (p : Point) : Int := p.y

/-- The `stats` attribute: `{minValue, minPoint, maxValue, maxPoint}`. -/
structure Stats where
  minValue : Int
  minPoint : Point
  maxValue : Int
  maxPoint : Point
deriving DecidableEq, Repr

/-- One emitted change event.  `add` carries the inserted point and its
insertion index; `remove` carries the removed point and the index found by
`indexOf` (which is `-1` when the point is not present, hence `Int`). -/
inductive SeriesEvent where
  | add (point : Point) (index : Nat)
  | remove (point : Point) (index : Int)
  | reset
  | load
deriving DecidableEq, Repr

/-- The mutable state of one `PlotSeries`: the `data` array, the `stats`
attribute (absent until the first point arrives), and the trace of emitted
events. -/
structure PlotSeries where
  data : List Point
  stats : Option Stats
  events : List SeriesEvent
deriving DecidableEq, Repr

/-- The state right after the constructor: `this.data = []`, no stats. -/
def emptySeries : PlotSeries := { data := [], stats := none, events := [] }

/-- The binary search inside lodash's `_.sortedIndex(array, value,
iteratee)`: the classic leftmost-insertion-point loop
`while (low < high) { mid = (low + high) >>> 1; if (key(array[mid]) <
value) low = mid + 1; else high = mid; } return low;`, here running over
the list of already-extracted keys.  The loop is embedded with an explicit
iteration budget (`fuel`), so that the function is structurally recursive
and computable by evaluation; a budget of `high - low` iterations is
provably enough for the bisection to close the interval (see
`sortedIndexAux_eq_countP` and `sortedIndexAux_le_high`, whose fuel
hypothesis is exactly that), and the exhausted-budget fallback returning
`low` is therefore never taken on the calls made below. -/
def sortedIndexAux (keys : List Int) (value : Int) : Nat → Nat → Nat → Nat
  | 0, low, _high => low
  | fuel + 1, low, high =>
    if low < high then
      let mid := (low + high) / 2
      if keys.getD mid 0 < value then
        sortedIndexAux keys value fuel (mid + 1) high
      else
        sortedIndexAux keys value fuel low mid
    else
      low

/-- `_.sortedIndex(data, ·, this.getXVal)` for a bare x value. -/
def sortedIndexVal (data : List Point) (value : Int) : Nat :=
  sortedIndexAux (data.map getXVal) value data.length 0 data.length

/-- `this.sortedIndex(point)`: the insertion index for `point` that keeps
`this.data` sorted by x-extractor value (line 161-163). -/
def sortedIndex (data : List Point) (point : Point) : Nat :=
  sortedIndexVal data (getXVal point)

/-- The running part of `updateStats` (lines 168-200): fold one point's
y value into the optional `stats` attribute.  The `changed` flag in the
source only gates the final `set('stats', ...)` write-back of an already
in-place-mutated object, so the resulting attribute value is as below. -/
def updateStatsF (stats : Option Stats) (point : Point) : Option Stats :=
  let value := getYVal point
  match stats with
  | none =>
      some { minValue := value, minPoint := point
             maxValue := value, maxPoint := point }
  | some st =>
      let st := if st.maxValue < value then
          { st with maxValue := value, maxPoint := point } else st
      let st := if st.minValue > value then
          { st with minValue := value, minPoint := point } else st
      some st

/-- `this.updateStats(point)` acting on the whole state. -/
def updateStats (s : PlotSeries) (point : Point) : PlotSeries :=
  { s with stats := updateStatsF s.stats point }

/-- `this.resetStats()` (lines 117-120): unset `stats`, then fold
`updateStats` over every current point. -/
def resetStats (s : PlotSeries) : PlotSeries :=
  s.data.foldl updateStats { s with stats := none }

/-- `this.add(point, appendOnly)` (lines 213-228).  With `appendOnly` the
insertion index is the current length and no duplicate check runs;
otherwise the index comes from `sortedIndex` and the insert is silently
dropped when the point at the index, or the one right before it, has the
same x-extractor value (`this.data[insertIndex]` is `undefined` past the
end, and `this.data[-1]` is `undefined`, so those comparisons fail). -/
def add (s : PlotSeries) (point : Point) (appendOnly : Bool) : PlotSeries :=
  let insertIndex := if appendOnly then s.data.length else sortedIndex s.data point
  if !appendOnly ∧
      (s.data[insertIndex]?.map getXVal = some (getXVal point)
        ∨ (if insertIndex = 0 then none else s.data[insertIndex - 1]?).map getXVal
            = some (getXVal point)) then
    s
  else
    let s' := updateStats s point
    { s' with
      data := s'.data.insertIdx insertIndex point
      events := s'.events ++ [SeriesEvent.add point insertIndex] }

/-- `Array.prototype.indexOf` with a running position: first index holding
an element `===`-equal to `point`, else `-1`. -/
def indexOfAux (data : List Point) (point : Point) (i : Nat) : Int :=
  match data with
  | [] => -1
  | p :: rest => if p = point then (i : Int) else indexOfAux rest point (i + 1)

/-- `this.data.indexOf(point)`. -/
def indexOfJS (data : List Point) (point : Point) : Int :=
  indexOfAux data point 0

/-- `array.splice(index, 1)` for a possibly negative `index`, as JS
defines it: a negative start counts from the end (clamped at 0), a start
at or past the end deletes nothing. -/
def spliceDeleteOne (data : List Point) (index : Int) : List Point :=
  let start : Nat := if index < 0 then data.length - index.natAbs else index.toNat
  data.eraseIdx start

/-- `this.remove(point)` (lines 232-236): `indexOf`, `splice(index, 1)`,
emit `remove`.  When the point is not found, `index` is `-1` and the
splice deletes the last element. -/
def remove (s : PlotSeries) (point : Point) : PlotSeries :=
  let index := indexOfJS s.data point
  { s with
    data := spliceDeleteOne s.data index
    events := s.events ++ [SeriesEvent.remove point index] }

/-- Modelled from the spec: `addPoints(newData, true)` is called by
`reset` (line 114) but its definition is not among the provided sources.
Per the spec, `reset` must "bulk-append \x5bthe new points\x5d via
append-only semantics", i.e. feed each point of the array to `add` with
the given append-only flag. -/
def addPoints (s : PlotSeries) (points : List Point) (appendOnly : Bool) : PlotSeries :=
  points.foldl (fun acc p => add acc p appendOnly) s

/-- `this.reset(newData)` (lines 109-116): clear `data`, `resetStats()`
(on the now-empty array, so `stats` ends up unset), emit `reset`, then
bulk-append the optional seed. -/
def reset (s : PlotSeries) (newData : Option (List Point)) : PlotSeries :=
  let s1 := resetStats { s with data := [] }
  let s2 := { s1 with events := s1.events ++ [SeriesEvent.reset] }
  match newData with
  | none => s2
  | some pts => addPoints s2 pts true

/-- Comparison of two distances where `none` stands for
`Number.POSITIVE_INFINITY`: `highDistance < lowDistance`. -/
def infLt : Option Int → Option Int → Bool
  | some a, some b => a < b
  | some _, none => true
  | none, _ => false

/-- `this.nearestPoint(point)` (lines 125-139): look at the neighbours of
the insertion index, compare their absolute x distances (an absent
neighbour counts as infinitely far), and return `highPoint` exactly when
`highDistance < lowDistance` (strictly), else `lowPoint`. -/
def nearestPoint (s : PlotSeries) (point : Point) : Option Point :=
  let insertIndex := sortedIndex s.data point
  let lowPoint := if insertIndex = 0 then none else s.data[insertIndex - 1]?
  let highPoint := s.data[insertIndex]?
  let indexVal := getXVal point
  let lowDistance := lowPoint.map (fun p => indexVal - getXVal p)
  let highDistance := highPoint.map (fun p => getXVal p - indexVal)
  if infLt highDistance lowDistance then highPoint else lowPoint

/-- The `{min, max}` x-range handed to `purgeRecordsOutsideRange`. -/
structure Range where
  min : Int
  max : Int
deriving DecidableEq, Repr

/-- `this.purgeRecordsOutsideRange(range)` (lines 247-269).  The synthetic
`startPoint`/`endPoint` hold `format.format(range.min/max)` under the x
key and are then read back through the same format's `parse` inside
`sortedIndex`, so their extracted keys are `range.min` and `range.max`
(format/parse is an external round-tripping pass-through).  Note two
features carried over faithfully from the source: `endIndex` is the
insertion index of `max` *plus one*, and the suffix slice
`this.data.slice(endIndex, this.data.length)` is taken *after* the prefix
removals have already shrunk `this.data`. -/
def purgeRecordsOutsideRange (s : PlotSeries) (range : Range) : PlotSeries :=
  let startIndex := sortedIndexVal s.data range.min
  let endIndex := sortedIndexVal s.data range.max + 1
  let pointsToRemove : Int :=
    (startIndex : Int) + ((s.data.length : Int) - (endIndex : Int) + 1)
  if pointsToRemove > 0 then
    if pointsToRemove < 1000 then
      let s1 := (s.data.take startIndex).foldl remove s
      let s2 := (s1.data.drop endIndex).foldl remove s1
      resetStats s2
    else
      let newData := (s.data.drop startIndex).take (endIndex - startIndex)
      reset s (some newData)
  else
    s

/-- One public mutating call on the buffer. -/
inductive SeriesOp where
  | add (point : Point) (appendOnly : Bool)
  | remove (point : Point)
  | reset (newData : Option (List Point))
  | purge (range : Range)
deriving Repr

/-- Apply one call. -/
def applyOp (s : PlotSeries) : SeriesOp → PlotSeries
  | .add p appendOnly => add s p appendOnly
  | .remove p => remove s p
  | .reset newData => reset s newData
  | .purge range => purgeRecordsOutsideRange s range

/-- Apply a sequence of calls in order. -/
def applyOps (s : PlotSeries) (ops : List SeriesOp) : PlotSeries :=
  ops.foldl applyOp s

/-- Is this call a bare `remove`? -/
def SeriesOp.isRemoveOp : SeriesOp → Bool
  | .remove _ => true
  | _ => false

/-- Event classifiers used to count emissions. -/
def isRemoveEvent : SeriesEvent → Bool
  | .remove _ _ => true
  | _ => false

/-- Is this event a `reset` emission? -/
def isResetEvent : SeriesEvent → Bool
  | .reset => true
  | _ => false

/-- The `data` array is strictly ascending in x-extractor value (the class
invariant: sorted, no duplicate x values). -/
def sortedByX (data : List Point) : Prop :=
  List.Pairwise (fun a b => getXVal a < getXVal b) data

instance (data : List Point) : Decidable (sortedByX data) := by
  unfold sortedByX; infer_instance

/-- `stats` truthfully summarises `data`: absent exactly on the empty
buffer, and otherwise `minValue`/`maxValue` are the least and greatest
y-extractor values attained by stored points. -/
def statsInv (data : List Point) : Option Stats → Prop
  | none => data = []
  | some st =>
      (∀ p ∈ data, st.minValue ≤ getYVal p ∧ getYVal p ≤ st.maxValue)
        ∧ (∃ p ∈ data, getYVal p = st.minValue)
        ∧ (∃ p ∈ data, getYVal p = st.maxValue)

instance (data : List Point) (stats : Option Stats) : Decidable (statsInv data stats) := by
  unfold statsInv; cases stats <;> infer_instance

/-- The stats half of the class invariant, on a whole state. -/
def statsCorrect (s : PlotSeries) : Prop := statsInv s.data s.stats

instance (s : PlotSeries) : Decidable (statsCorrect s) := by
  unfold statsCorrect
  infer_instance

/-! ## Characterisation of the binary search on sorted data -/

/-- The number of stored points whose x-extractor value is below `v`. -/
def xCountLt (data : List Point) (v : Int) : Nat :=
  data.countP (fun p => decide (getXVal p < v))

theorem lt_countP_of_getD_lt {keys : List Int} {v : Int}
    (hk : List.Pairwise (· ≤ ·) keys) :
    ∀ {j : Nat}, j < keys.length → keys.getD j 0 < v →
      j < keys.countP (fun k => decide (k < v)) := by
  induction keys with
  | nil => intro j h; simp at h
  | cons k t ih =>
      rcases List.pairwise_cons.mp hk with ⟨hkt, pt⟩
      intro j hj hlt
      cases j with
      | zero =>
          simp only [List.getD_cons_zero] at hlt
          simp [List.countP_cons, hlt]
      | succ j =>
          simp only [List.getD_cons_succ] at hlt
          simp only [List.length_cons, Nat.succ_lt_succ_iff] at hj
          have hmem : t.getD j 0 ∈ t := by
            rw [List.getD_eq_getElem t 0 hj]
            exact List.getElem_mem hj
          have hk' : k < v := lt_of_le_of_lt (hkt _ hmem) hlt
          have := ih pt hj hlt
          simp only [List.countP_cons, hk', decide_True, if_true]
          omega

theorem countP_le_of_not_getD_lt {keys : List Int} {v : Int}
    (hk : List.Pairwise (· ≤ ·) keys) :
    ∀ {j : Nat}, j < keys.length → ¬ keys.getD j 0 < v →
      keys.countP (fun k => decide (k < v)) ≤ j := by
  induction keys with
  | nil => intro j h; simp at h
  | cons k t ih =>
      rcases List.pairwise_cons.mp hk with ⟨hkt, pt⟩
      intro j hj hge
      cases j with
      | zero =>
          simp only [List.getD_cons_zero] at hge
          have ht : t.countP (fun k => decide (k < v)) = 0 := by
            refine List.countP_eq_zero.mpr ?_
            intro x hx
            simp only [decide_eq_true_eq]
            exact fun hxv => hge (lt_of_le_of_lt (hkt x hx) hxv)
          simp [List.countP_cons, ht, hge]
      | succ j =>
          simp only [List.getD_cons_succ] at hge
          simp only [List.length_cons, Nat.succ_lt_succ_iff] at hj
          have := ih pt hj hge
          simp only [List.countP_cons]
          by_cases hk' : k < v <;> simp [hk'] <;> omega

theorem sortedIndexAux_eq_countP {keys : List Int} {v : Int}
    (hk : List.Pairwise (· ≤ ·) keys) :
    ∀ (n low high : Nat), high - low ≤ n → high ≤ keys.length →
      low ≤ keys.countP (fun k => decide (k < v)) →
      keys.countP (fun k => decide (k < v)) ≤ high →
      sortedIndexAux keys v n low high = keys.countP (fun k => decide (k < v)) := by
  intro n
  induction n with
  | zero =>
      intro low high hn hlen h1 h2
      simp only [sortedIndexAux]
      omega
  | succ n ih =>
      intro low high hn hlen h1 h2
      simp only [sortedIndexAux]
      by_cases hlh : low < high
      · simp only [hlh, if_true]
        set mid := (low + high) / 2 with hmid
        have hmlow : low ≤ mid := by omega
        have hmhigh : mid < high := by omega
        have hmlen : mid < keys.length := by omega
        by_cases hcmp : keys.getD mid 0 < v
        · simp only [hcmp, if_true]
          have : mid < keys.countP (fun k => decide (k < v)) :=
            lt_countP_of_getD_lt hk hmlen hcmp
          exact ih (mid + 1) high (by omega) hlen (by omega) h2
        · simp only [hcmp, if_false]
          have : keys.countP (fun k => decide (k < v)) ≤ mid :=
            countP_le_of_not_getD_lt hk hmlen hcmp
          exact ih low mid (by omega) (by omega) h1 this
      · simp only [hlh, if_false]
        omega

/-- On a sorted buffer, lodash's binary search returns the number of
points with x-extractor value strictly below the searched value. -/
theorem sortedIndexVal_eq_xCountLt {data : List Point} {v : Int}
    (hs : sortedByX data) : sortedIndexVal data v = xCountLt data v := by
  unfold sortedIndexVal xCountLt
  have hk : List.Pairwise (· ≤ ·) (data.map getXVal) :=
    List.pairwise_map.mpr (hs.imp le_of_lt)
  have hcount : (data.map getXVal).countP (fun k => decide (k < v))
      = data.countP (fun p => decide (getXVal p < v)) := by
    rw [List.countP_map]; rfl
  rw [← hcount]
  exact sortedIndexAux_eq_countP hk data.length 0 data.length
    (by omega) (by simp) (Nat.zero_le _)
    (by simpa using List.countP_le_length _)

theorem xCountLt_le_length (data : List Point) (v : Int) :
    xCountLt data v ≤ data.length :=
  List.countP_le_length _

/-- On a sorted buffer, every point strictly before the insertion index of
`v` has x-extractor value below `v`. -/
theorem getX_lt_of_lt_xCountLt {data : List Point} {v : Int}
    (hs : sortedByX data) {j : Nat} (hj : j < data.length)
    (hlt : j < xCountLt data v) : getXVal data[j] < v := by
  by_contra hge
  have hk : List.Pairwise (· ≤ ·) (data.map getXVal) :=
    List.pairwise_map.mpr (hs.imp le_of_lt)
  have hjm : j < (data.map getXVal).length := by simpa using hj
  have hgd : (data.map getXVal).getD j 0 = getXVal data[j] := by
    rw [List.getD_eq_getElem _ 0 hjm]
    simp
  have := countP_le_of_not_getD_lt hk hjm (by rw [hgd]; exact hge)
  have hxc : (data.map getXVal).countP (fun k => decide (k < v)) = xCountLt data v := by
    rw [List.countP_map]; rfl
  omega

/-- On a sorted buffer, every point at or after the insertion index of `v`
has x-extractor value at least `v`. -/
theorem le_getX_of_xCountLt_le {data : List Point} {v : Int}
    (hs : sortedByX data) {j : Nat} (hj : j < data.length)
    (hge : xCountLt data v ≤ j) : v ≤ getXVal data[j] := by
  by_contra hlt
  push_neg at hlt
  have hk : List.Pairwise (· ≤ ·) (data.map getXVal) :=
    List.pairwise_map.mpr (hs.imp le_of_lt)
  have hjm : j < (data.map getXVal).length := by simpa using hj
  have hgd : (data.map getXVal).getD j 0 = getXVal data[j] := by
    rw [List.getD_eq_getElem _ 0 hjm]
    simp
  have := lt_countP_of_getD_lt hk hjm (by rw [hgd]; exact hlt)
  have hxc : (data.map getXVal).countP (fun k => decide (k < v)) = xCountLt data v := by
    rw [List.countP_map]; rfl
  omega

/-! ## Closed forms for `add`, `addPoints`, `reset` -/

theorem insertIdx_eq_take_cons_drop :
    ∀ (l : List Point) (n : Nat), n ≤ l.length →
      ∀ a : Point, l.insertIdx n a = l.take n ++ a :: l.drop n := by
  intro l
  induction l with
  | nil =>
      intro n hn a
      have : n = 0 := by simpa using hn
      subst this
      simp [List.insertIdx_zero]
  | cons h t ih =>
      intro n hn a
      cases n with
      | zero => simp [List.insertIdx_zero]
      | succ n =>
          simp only [List.length_cons, Nat.succ_le_succ_iff] at hn
          simp [List.insertIdx_succ_cons, ih n hn a]

/-- What the append-only path of `add` does. -/
theorem add_appendOnly (s : PlotSeries) (p : Point) :
    add s p true =
      { data := s.data ++ [p]
        stats := updateStatsF s.stats p
        events := s.events ++ [SeriesEvent.add p s.data.length] } := by
  simp [add, updateStats]

/-- The `add` events recorded while bulk-appending, starting at a given
array length. -/
def addEventsFrom (n : Nat) : List Point → List SeriesEvent
  | [] => []
  | p :: rest => SeriesEvent.add p n :: addEventsFrom (n + 1) rest

/-- Closed form of the (spec-modelled) append-only bulk append. -/
theorem addPoints_appendOnly (ps : List Point) :
    ∀ s : PlotSeries,
      addPoints s ps true =
        { data := s.data ++ ps
          stats := ps.foldl updateStatsF s.stats
          events := s.events ++ addEventsFrom s.data.length ps } := by
  induction ps with
  | nil => intro s; simp [addPoints, addEventsFrom]
  | cons p rest ih =>
      intro s
      have : addPoints s (p :: rest) true = addPoints (add s p true) rest true := by
        simp [addPoints]
      rw [this, ih, add_appendOnly]
      simp [addEventsFrom]

/-- Closed form of `reset` with a seed array. -/
theorem reset_some (s : PlotSeries) (ps : List Point) :
    reset s (some ps) =
      { data := ps
        stats := ps.foldl updateStatsF none
        events := s.events ++ SeriesEvent.reset :: addEventsFrom 0 ps } := by
  simp [reset, resetStats, addPoints_appendOnly]

/-- Closed form of `reset` without a seed. -/
theorem reset_none (s : PlotSeries) :
    reset s none =
      { data := [], stats := none, events := s.events ++ [SeriesEvent.reset] } := by
  simp [reset, resetStats]


theorem sorted_getX_lt {data : List Point} (hs : sortedByX data)
    {i j : Nat} (hj : j < data.length) (hij : i < j) :
    getXVal data[i] < getXVal data[j] :=
  List.pairwise_iff_getElem.mp hs i j (lt_trans hij hj) hj hij

/-- If the buffer is sorted and some stored point has x value `v`, then
that point sits exactly at the insertion index of `v`. -/
theorem getElem_xCountLt_eq {data : List Point} {v : Int}
    (hs : sortedByX data) {q : Point} (hq : q ∈ data) (hqv : getXVal q = v) :
    ∃ h : xCountLt data v < data.length, getXVal data[xCountLt data v] = v := by
  obtain ⟨j, hj, rfl⟩ := List.mem_iff_getElem.mp hq
  have hcj : xCountLt data v ≤ j := by
    by_contra hlt
    push_neg at hlt
    exact absurd hqv (ne_of_lt (getX_lt_of_lt_xCountLt hs hj hlt))
  have hclen : xCountLt data v < data.length := lt_of_le_of_lt hcj hj
  refine ⟨hclen, ?_⟩
  rcases Nat.lt_or_ge (xCountLt data v) j with hlt | hge
  · have h1 : getXVal data[xCountLt data v] < getXVal data[j] := sorted_getX_lt hs hj hlt
    have h2 : v ≤ getXVal data[xCountLt data v] := le_getX_of_xCountLt_le hs hclen (le_refl _)
    omega
  · have hje : xCountLt data v = j := le_antisymm hcj hge
    have h1 : data[xCountLt data v]? = data[j]? := by rw [hje]
    rw [List.getElem?_eq_getElem hclen, List.getElem?_eq_getElem hj] at h1
    rw [Option.some.inj h1]
    exact hqv

/-- On a sorted buffer, inserting a point whose x value is already present
is a silent no-op (the duplicate check at the insertion index fires). -/
theorem add_dup_noop {s : PlotSeries} {p : Point}
    (hs : sortedByX s.data)
    (hdup : ∃ q ∈ s.data, getXVal q = getXVal p) :
    add s p false = s := by
  obtain ⟨q, hq, hqv⟩ := hdup
  obtain ⟨hlen, hx⟩ := getElem_xCountLt_eq hs hq hqv
  have hidx : sortedIndex s.data p = xCountLt s.data (getXVal p) := by
    unfold sortedIndex
    exact sortedIndexVal_eq_xCountLt hs
  simp only [add, Bool.not_false, Bool.false_eq_true, if_false, hidx]
  rw [if_pos]
  refine ⟨by simp, Or.inl ?_⟩
  rw [List.getElem?_eq_getElem hlen]
  simp [hx]

/-- Closed form of the non-append insert when no stored point shares the
new point's x value: both duplicate checks fail and the point is spliced
in at the insertion index. -/
theorem add_insert_eq {s : PlotSeries} {p : Point}
    (hs : sortedByX s.data)
    (hno : ∀ q ∈ s.data, getXVal q ≠ getXVal p) :
    add s p false =
      { data := s.data.take (xCountLt s.data (getXVal p))
                  ++ p :: s.data.drop (xCountLt s.data (getXVal p))
        stats := updateStatsF s.stats p
        events := s.events ++ [SeriesEvent.add p (xCountLt s.data (getXVal p))] } := by
  have hidx : sortedIndex s.data p = xCountLt s.data (getXVal p) := by
    unfold sortedIndex
    exact sortedIndexVal_eq_xCountLt hs
  have hcle : xCountLt s.data (getXVal p) ≤ s.data.length := xCountLt_le_length _ _
  simp only [add, Bool.not_false, Bool.false_eq_true, if_false, hidx]
  rw [if_neg]
  · rw [updateStats, insertIdx_eq_take_cons_drop s.data _ hcle p]
  · rintro ⟨-, hA | hB⟩
    · rcases Nat.lt_or_ge (xCountLt s.data (getXVal p)) s.data.length with hlt | hge
      · rw [List.getElem?_eq_getElem hlt] at hA
        simp only [Option.map_some', Option.some.injEq] at hA
        exact hno _ (List.getElem_mem hlt) hA
      · rw [List.getElem?_eq_none hge] at hA
        simp at hA
    · by_cases hc0 : xCountLt s.data (getXVal p) = 0
      · simp [hc0] at hB
      · have hlt : xCountLt s.data (getXVal p) - 1 < s.data.length := by omega
        simp only [hc0, if_false] at hB
        rw [List.getElem?_eq_getElem hlt] at hB
        simp only [Option.map_some', Option.some.injEq] at hB
        have := getX_lt_of_lt_xCountLt (v := getXVal p) hs hlt (by omega)
        omega

/-- Splicing a point with a fresh x value in at its insertion index keeps
the buffer strictly sorted. -/
theorem sortedByX_add_insert {data : List Point} {p : Point}
    (hs : sortedByX data)
    (hno : ∀ q ∈ data, getXVal q ≠ getXVal p) :
    sortedByX (data.take (xCountLt data (getXVal p))
      ++ p :: data.drop (xCountLt data (getXVal p))) := by
  set c := xCountLt data (getXVal p) with hc
  have hcle : c ≤ data.length := xCountLt_le_length _ _
  have hsplit : data.take c ++ data.drop c = data := List.take_append_drop c data
  have hP : List.Pairwise (fun a b => getXVal a < getXVal b) (data.take c ++ data.drop c) := by
    rw [hsplit]
    exact hs
  obtain ⟨h1, h2, hcross⟩ := List.pairwise_append.mp hP
  have htake : ∀ a ∈ data.take c, getXVal a < getXVal p := by
    intro a ha
    obtain ⟨j, hj, rfl⟩ := List.mem_iff_getElem.mp ha
    have hjc : j < c := by
      have := hj
      simp only [List.length_take] at this
      omega
    have hjlen : j < data.length := by
      simp only [List.length_take] at hj
      omega
    rw [List.getElem_take]
    exact getX_lt_of_lt_xCountLt hs hjlen hjc
  have hdrop : ∀ b ∈ data.drop c, getXVal p < getXVal b := by
    intro b hb
    obtain ⟨j, hj, rfl⟩ := List.mem_iff_getElem.mp hb
    have hjlen : c + j < data.length := by
      simp only [List.length_drop] at hj
      omega
    rw [List.getElem_drop]
    have hge := le_getX_of_xCountLt_le (v := getXVal p) hs hjlen (by omega)
    have hne := hno _ (List.getElem_mem hjlen)
    omega
  refine List.pairwise_append.mpr ⟨h1, List.pairwise_cons.mpr ⟨hdrop, h2⟩, ?_⟩
  intro a ha b hb
  rcases List.mem_cons.mp hb with rfl | hb'
  · exact htake a ha
  · exact hcross a ha b hb'

/-- The non-append insert path preserves the sort invariant. -/
theorem add_false_preserves_sorted {s : PlotSeries} {p : Point}
    (hs : sortedByX s.data) : sortedByX (add s p false).data := by
  by_cases hdup : ∃ q ∈ s.data, getXVal q = getXVal p
  · rw [add_dup_noop hs hdup]
    exact hs
  · push_neg at hdup
    rw [add_insert_eq hs hdup]
    exact sortedByX_add_insert hs hdup

/-! ## The running statistics invariant -/

theorem updateStatsF_some (st : Stats) (p : Point) :
    updateStatsF (some st) p = some {
      minValue := if st.minValue > getYVal p then getYVal p else st.minValue
      minPoint := if st.minValue > getYVal p then p else st.minPoint
      maxValue := if st.maxValue < getYVal p then getYVal p else st.maxValue
      maxPoint := if st.maxValue < getYVal p then p else st.maxPoint } := by
  simp only [updateStatsF]
  by_cases hmax : st.maxValue < getYVal p <;>
    by_cases hmin : st.minValue > getYVal p <;>
      simp [hmax, hmin]

/-- Folding one more point into the stats keeps them truthful for any
collection holding exactly the old points plus the new one. -/
theorem statsInv_updateStatsF {data data' : List Point} {st : Option Stats} {p : Point}
    (hinv : statsInv data st)
    (hmem : ∀ q, q ∈ data' ↔ q = p ∨ q ∈ data) :
    statsInv data' (updateStatsF st p) := by
  cases st with
  | none =>
      have hdata : data = [] := hinv
      subst hdata
      simp only [updateStatsF, statsInv]
      refine ⟨?_, ⟨p, (hmem p).mpr (Or.inl rfl), rfl⟩, ⟨p, (hmem p).mpr (Or.inl rfl), rfl⟩⟩
      intro q hq
      rcases (hmem q).mp hq with rfl | hq'
      · exact ⟨le_refl _, le_refl _⟩
      · simp at hq'
  | some st =>
      obtain ⟨hbnd, ⟨qmin, hqmin, hqminv⟩, ⟨qmax, hqmax, hqmaxv⟩⟩ := hinv
      rw [updateStatsF_some]
      refine ⟨?_, ?_, ?_⟩
      · intro q hq
        rcases (hmem q).mp hq with rfl | hq'
        · constructor <;> split_ifs <;> simp <;> omega
        · have := hbnd q hq'
          constructor <;> split_ifs <;> simp <;> omega
      · by_cases hmin : st.minValue > getYVal p
        · exact ⟨p, (hmem p).mpr (Or.inl rfl), by simp [hmin]⟩
        · exact ⟨qmin, (hmem qmin).mpr (Or.inr hqmin), by simp [hmin, hqminv]⟩
      · by_cases hmax : st.maxValue < getYVal p
        · exact ⟨p, (hmem p).mpr (Or.inl rfl), by simp [hmax]⟩
        · exact ⟨qmax, (hmem qmax).mpr (Or.inr hqmax), by simp [hmax, hqmaxv]⟩

theorem statsInv_foldl_append :
    ∀ (l data : List Point) (st : Option Stats), statsInv data st →
      statsInv (data ++ l) (l.foldl updateStatsF st) := by
  intro l
  induction l with
  | nil => intro data st h; simpa using h
  | cons p t ih =>
      intro data st h
      have hstep : statsInv (data ++ [p]) (updateStatsF st p) :=
        statsInv_updateStatsF h (by intro q; simp [or_comm, or_assoc])
      have := ih (data ++ [p]) (updateStatsF st p) hstep
      simpa [List.append_assoc] using this

theorem foldl_updateStats_eq :
    ∀ (l : List Point) (s : PlotSeries),
      l.foldl updateStats s = { s with stats := l.foldl updateStatsF s.stats } := by
  intro l
  induction l with
  | nil => intro s; simp
  | cons p t ih => intro s; simp [updateStats, ih]

/-- `resetStats` always restores the statistics invariant. -/
theorem statsCorrect_resetStats (s : PlotSeries) : statsCorrect (resetStats s) := by
  unfold statsCorrect resetStats
  rw [foldl_updateStats_eq]
  exact statsInv_foldl_append s.data [] none rfl

/-- `reset` always restores the statistics invariant. -/
theorem statsCorrect_reset (s : PlotSeries) (newData : Option (List Point)) :
    statsCorrect (reset s newData) := by
  cases newData with
  | none => rw [reset_none]; exact rfl
  | some ps =>
      rw [reset_some]
      exact statsInv_foldl_append ps [] none rfl

/-- The binary search never leaves `[low, high]`, sorted or not. -/
theorem sortedIndexAux_le_high (keys : List Int) (v : Int) :
    ∀ (n low high : Nat), low ≤ high →
      low ≤ sortedIndexAux keys v n low high ∧ sortedIndexAux keys v n low high ≤ high := by
  intro n
  induction n with
  | zero =>
      intro low high hlh
      simp only [sortedIndexAux]
      omega
  | succ n ih =>
      intro low high hlh
      simp only [sortedIndexAux]
      by_cases h : low < high
      · simp only [h, if_true]
        by_cases hc : keys.getD ((low + high) / 2) 0 < v
        · simp only [hc, if_true]
          have := ih ((low + high) / 2 + 1) high (by omega)
          omega
        · simp only [hc, if_false]
          have := ih low ((low + high) / 2) (by omega)
          omega
      · simp only [h, if_false]
        omega

theorem sortedIndex_le_length (data : List Point) (p : Point) :
    sortedIndex data p ≤ data.length := by
  unfold sortedIndex sortedIndexVal
  have := sortedIndexAux_le_high (data.map getXVal) (getXVal p)
    data.length 0 data.length (by omega)
  omega

/-- `add` keeps the statistics truthful, on any state and either path. -/
theorem statsCorrect_add {s : PlotSeries} (p : Point) (appendOnly : Bool)
    (h : statsCorrect s) : statsCorrect (add s p appendOnly) := by
  cases appendOnly with
  | true =>
      rw [add_appendOnly]
      exact statsInv_updateStatsF h (by intro q; simp [or_comm])
  | false =>
      by_cases hdup : (Option.map getXVal s.data[sortedIndex s.data p]? = some (getXVal p) ∨
          Option.map getXVal
            (if sortedIndex s.data p = 0 then none else s.data[sortedIndex s.data p - 1]?)
            = some (getXVal p))
      · have hnoop : add s p false = s := by
          simp only [add, Bool.not_false, Bool.false_eq_true, if_false]
          rw [if_pos ⟨by simp, hdup⟩]
        rw [hnoop]
        exact h
      · have hins : add s p false =
            { data := s.data.insertIdx (sortedIndex s.data p) p
              stats := updateStatsF s.stats p
              events := s.events ++ [SeriesEvent.add p (sortedIndex s.data p)] } := by
          simp only [add, Bool.not_false, Bool.false_eq_true, if_false]
          rw [if_neg]
          · simp [updateStats]
          · rintro ⟨-, hc⟩
            exact hdup hc
        rw [hins]
        exact statsInv_updateStatsF h
          (fun q => List.mem_insertIdx (sortedIndex_le_length s.data p))

/-- `purgeRecordsOutsideRange` keeps the statistics truthful: both purge
strategies end in a full stats rebuild (`resetStats` resp. `reset`). -/
theorem statsCorrect_purge (s : PlotSeries) (range : Range)
    (h : statsCorrect s) : statsCorrect (purgeRecordsOutsideRange s range) := by
  simp only [purgeRecordsOutsideRange]
  split_ifs
  · exact statsCorrect_resetStats _
  · exact statsCorrect_reset _ _
  · exact h

theorem statsCorrect_applyOps :
    ∀ (ops : List SeriesOp) (s : PlotSeries), statsCorrect s →
      (∀ op ∈ ops, op.isRemoveOp = false) →
      statsCorrect (applyOps s ops) := by
  intro ops
  induction ops with
  | nil => intro s h _; exact h
  | cons op rest ih =>
      intro s h hops
      have hop := hops op (List.mem_cons_self op rest)
      have hrest : ∀ o ∈ rest, o.isRemoveOp = false :=
        fun o ho => hops o (List.mem_cons_of_mem op ho)
      have hstep : statsCorrect (applyOp s op) := by
        cases op with
        | add p ao => exact statsCorrect_add p ao h
        | remove p => simp [SeriesOp.isRemoveOp] at hop
        | reset nd => exact statsCorrect_reset s nd
        | purge r => exact statsCorrect_purge s r h
      exact ih (applyOp s op) hstep hrest

/-! ## `indexOf`, `splice`, and `remove` -/

theorem indexOfAux_not_mem {p : Point} :
    ∀ (l : List Point) (i : Nat), p ∉ l → indexOfAux l p i = -1 := by
  intro l
  induction l with
  | nil => intro i _; rfl
  | cons q t ih =>
      intro i hp
      have hq : q ≠ p := fun h => hp (h ▸ List.mem_cons_self q t)
      have ht : p ∉ t := fun h => hp (List.mem_cons_of_mem q h)
      simp only [indexOfAux, hq, if_false]
      exact ih (i + 1) ht

theorem indexOfAux_spec {p : Point} :
    ∀ (l : List Point) (i : Nat), p ∈ l →
      ∃ j : Nat, indexOfAux l p i = ((i + j : Nat) : Int)
        ∧ l[j]? = some p ∧ ∀ k < j, l[k]? ≠ some p := by
  intro l
  induction l with
  | nil => intro i h; simp at h
  | cons q t ih =>
      intro i hp
      by_cases hq : q = p
      · subst hq
        exact ⟨0, by simp [indexOfAux], by simp, by omega⟩
      · have ht : p ∈ t := by
          rcases List.mem_cons.mp hp with h | h
          · exact absurd h.symm hq
          · exact h
        obtain ⟨j, h1, h2, h3⟩ := ih (i + 1) ht
        refine ⟨j + 1, ?_, by simpa using h2, ?_⟩
        · simp only [indexOfAux, hq, if_false]
          rw [h1]
          congr 1
          omega
        · intro k hk
          cases k with
          | zero => simp [hq]
          | succ k => simpa using h3 k (by omega)

theorem eraseIdx_length_sub_one (l : List Point) :
    l.eraseIdx (l.length - 1) = l.dropLast := by
  rw [List.eraseIdx_eq_take_drop_succ, List.dropLast_eq_take]
  have : l.drop (l.length - 1 + 1) = [] := List.drop_eq_nil_of_le (by omega)
  simp [this]

/-- `remove` on a point that is not in the array: `indexOf` gives `-1`
and `splice(-1, 1)` deletes the last element. -/
theorem remove_not_mem {s : PlotSeries} {p : Point} (hp : p ∉ s.data) :
    remove s p =
      { data := s.data.dropLast
        stats := s.stats
        events := s.events ++ [SeriesEvent.remove p (-1)] } := by
  have hidx : indexOfJS s.data p = -1 := indexOfAux_not_mem s.data 0 hp
  simp only [remove, hidx, spliceDeleteOne]
  rw [if_pos (by omega)]
  simp [eraseIdx_length_sub_one]

/-- C9: `remove` on a stored point locates it by identity (its first
occurrence), excises exactly that entry, and emits a `remove` event
carrying the point and its former index; the `stats` field is left
untouched (no statistics recomputation), whatever the point's y value. -/
theorem remove_mem_eq {s : PlotSeries} {p : Point} (hp : p ∈ s.data) :
    ∃ j : Nat, indexOfJS s.data p = (j : Int)
      ∧ j < s.data.length
      ∧ s.data[j]? = some p
      ∧ (∀ k < j, s.data[k]? ≠ some p)
      ∧ remove s p =
          { data := s.data.take j ++ s.data.drop (j + 1)
            stats := s.stats
            events := s.events ++ [SeriesEvent.remove p (j : Int)] } := by
  obtain ⟨j, h1, h2, h3⟩ := indexOfAux_spec s.data 0 hp
  have hjlen : j < s.data.length := by
    by_contra hge
    rw [List.getElem?_eq_none (by omega)] at h2
    simp at h2
  have hidx : indexOfJS s.data p = (j : Int) := by
    rw [indexOfJS, h1]
    congr 1
    omega
  refine ⟨j, hidx, hjlen, h2, h3, ?_⟩
  simp only [remove, hidx, spliceDeleteOne]
  rw [if_neg (by omega)]
  simp [List.eraseIdx_eq_take_drop_succ]

/-! ## Folding `remove` over slices (the small-purge path) -/

theorem pairwise_ne_of_sortedByX {data : List Point} (hs : sortedByX data) :
    List.Pairwise (· ≠ ·) data :=
  hs.imp (fun h heq => absurd (congrArg getXVal heq) (ne_of_lt h))

theorem foldl_remove_front :
    ∀ (l rest : List Point) (s : PlotSeries),
      s.data = l ++ rest → List.Pairwise (· ≠ ·) (l ++ rest) →
      l.foldl remove s =
        { data := rest
          stats := s.stats
          events := s.events ++ l.map (fun p => SeriesEvent.remove p 0) } := by
  intro l
  induction l with
  | nil =>
      intro rest s hdata _
      cases s
      simp_all
  | cons p t ih =>
      intro rest s hdata hpair
      have hstep : remove s p =
          { data := t ++ rest
            stats := s.stats
            events := s.events ++ [SeriesEvent.remove p 0] } := by
        have hidx : indexOfJS s.data p = 0 := by
          rw [hdata]
          simp [indexOfJS, indexOfAux]
        simp only [remove, hidx, spliceDeleteOne]
        rw [if_neg (by omega)]
        rw [hdata]
        simp [List.eraseIdx]
      have : (p :: t).foldl remove s = t.foldl remove (remove s p) := by
        simp
      rw [this, hstep, ih rest _ (by simp) (List.pairwise_cons.mp (by simpa using hpair)).2]
      simp

theorem foldl_remove_at :
    ∀ (l keep : List Point) (s : PlotSeries),
      s.data = keep ++ l → List.Pairwise (· ≠ ·) (keep ++ l) →
      l.foldl remove s =
        { data := keep
          stats := s.stats
          events := s.events
            ++ l.map (fun p => SeriesEvent.remove p (keep.length : Int)) } := by
  intro l
  induction l with
  | nil =>
      intro keep s hdata _
      cases s
      simp_all
  | cons p t ih =>
      intro keep s hdata hpair
      have hpk : p ∉ keep := by
        intro hmem
        rcases List.pairwise_append.mp hpair with ⟨-, -, hcross⟩
        exact hcross p hmem p (List.mem_cons_self p t) rfl
      have hmemp : p ∈ s.data := by
        rw [hdata]
        exact List.mem_append_right keep (List.mem_cons_self p t)
      obtain ⟨j, h1, h2, h3⟩ := indexOfAux_spec s.data 0 hmemp
      have hjkeep : j = keep.length := by
        rcases Nat.lt_trichotomy j keep.length with hlt | heq | hgt
        · exfalso
          have : s.data[j]? = keep[j]? := by
            rw [hdata, List.getElem?_append, if_pos hlt]
          rw [this] at h2
          have : p ∈ keep := by
            have hj : j < keep.length := hlt
            rw [List.getElem?_eq_getElem hj] at h2
            exact (Option.some.inj h2) ▸ List.getElem_mem hj
          exact hpk this
        · exact heq
        · exfalso
          refine h3 keep.length hgt ?_
          rw [hdata, List.getElem?_append_right (le_refl keep.length)]
          simp
      have hidx : indexOfJS s.data p = (keep.length : Int) := by
        rw [indexOfJS, h1, hjkeep]
        congr 1
        omega
      have herase : s.data.eraseIdx keep.length = keep ++ t := by
        rw [hdata, List.eraseIdx_eq_take_drop_succ]
        have h4 : (keep ++ p :: t).take keep.length = keep :=
          List.take_left keep (p :: t)
        have h5 : (keep ++ p :: t).drop (keep.length + 1) = t := by
          rw [List.drop_append]
          simp
        rw [h4, h5]
      have hstep : remove s p =
          { data := keep ++ t
            stats := s.stats
            events := s.events ++ [SeriesEvent.remove p (keep.length : Int)] } := by
        simp only [remove, hidx, spliceDeleteOne]
        rw [if_neg (by omega)]
        simpa using herase
      have hfold : (p :: t).foldl remove s = t.foldl remove (remove s p) := by
        simp
      have hpair' : List.Pairwise (· ≠ ·) (keep ++ t) := by
        refine hpair.sublist ?_
        exact List.Sublist.append_left (List.sublist_cons_self p t) keep
      rw [hfold, hstep, ih keep _ (by simp) hpair']
      simp

/-! ## Closed forms for the two purge strategies -/

theorem purge_eq_noop {s : PlotSeries} {range : Range} (hs : sortedByX s.data)
    (hT : xCountLt s.data range.min + (s.data.length - xCountLt s.data range.max) = 0) :
    purgeRecordsOutsideRange s range = s := by
  have hsi : sortedIndexVal s.data range.min = xCountLt s.data range.min :=
    sortedIndexVal_eq_xCountLt hs
  have hsm : sortedIndexVal s.data range.max = xCountLt s.data range.max :=
    sortedIndexVal_eq_xCountLt hs
  have hcm : xCountLt s.data range.max ≤ s.data.length := xCountLt_le_length _ _
  simp only [purgeRecordsOutsideRange, hsi, hsm]
  split_ifs with h1 h2
  · exfalso; push_cast at h1; omega
  · exfalso; push_cast at h1; omega
  · rfl

theorem purge_eq_small {s : PlotSeries} {range : Range} (hs : sortedByX s.data)
    (hT0 : 0 < xCountLt s.data range.min + (s.data.length - xCountLt s.data range.max))
    (hT1 : xCountLt s.data range.min + (s.data.length - xCountLt s.data range.max) < 1000) :
    purgeRecordsOutsideRange s range =
      { data := (s.data.drop (xCountLt s.data range.min)).take (xCountLt s.data range.max + 1)
        stats := ((s.data.drop (xCountLt s.data range.min)).take
            (xCountLt s.data range.max + 1)).foldl updateStatsF none
        events := s.events
          ++ (s.data.take (xCountLt s.data range.min)).map (fun p => SeriesEvent.remove p 0)
          ++ ((s.data.drop (xCountLt s.data range.min)).drop
                (xCountLt s.data range.max + 1)).map
              (fun p => SeriesEvent.remove p
                (((s.data.drop (xCountLt s.data range.min)).take
                    (xCountLt s.data range.max + 1)).length : Int)) } := by
  have hsi : sortedIndexVal s.data range.min = xCountLt s.data range.min :=
    sortedIndexVal_eq_xCountLt hs
  have hsm : sortedIndexVal s.data range.max = xCountLt s.data range.max :=
    sortedIndexVal_eq_xCountLt hs
  have hcm : xCountLt s.data range.max ≤ s.data.length := xCountLt_le_length _ _
  have hne : List.Pairwise (· ≠ ·) s.data := pairwise_ne_of_sortedByX hs
  simp only [purgeRecordsOutsideRange, hsi, hsm]
  split_ifs with h1 h2
  case neg => exfalso; push_cast at h2; omega
  case neg => exfalso; push_cast at h1; omega
  rw [foldl_remove_front (s.data.take (xCountLt s.data range.min))
    (s.data.drop (xCountLt s.data range.min)) s
    (List.take_append_drop _ _).symm
    (by rw [List.take_append_drop]; exact hne)]
  set D := s.data.drop (xCountLt s.data range.min) with hD
  rw [foldl_remove_at (D.drop (xCountLt s.data range.max + 1))
    (D.take (xCountLt s.data range.max + 1)) _
    (by simp [List.take_append_drop])
    (by rw [List.take_append_drop]; exact hne.sublist (List.drop_sublist _ _))]
  simp only [resetStats, foldl_updateStats_eq]

theorem purge_eq_reset {s : PlotSeries} {range : Range} (hs : sortedByX s.data)
    (hT : 1000 ≤ xCountLt s.data range.min + (s.data.length - xCountLt s.data range.max)) :
    purgeRecordsOutsideRange s range =
      reset s (some ((s.data.drop (xCountLt s.data range.min)).take
        (xCountLt s.data range.max + 1 - xCountLt s.data range.min))) := by
  have hsi : sortedIndexVal s.data range.min = xCountLt s.data range.min :=
    sortedIndexVal_eq_xCountLt hs
  have hsm : sortedIndexVal s.data range.max = xCountLt s.data range.max :=
    sortedIndexVal_eq_xCountLt hs
  have hcm : xCountLt s.data range.max ≤ s.data.length := xCountLt_le_length _ _
  simp only [purgeRecordsOutsideRange, hsi, hsm]
  split_ifs with h1 h2
  · exfalso; push_cast at h2; omega
  · rfl
  · exfalso; push_cast at h1; omega

/-! ## `nearestPoint` -/

theorem abs_sub_eq_of_le {a b : Int} (h : a ≤ b) : |a - b| = b - a := by
  rw [abs_sub_comm, abs_of_nonneg (by omega)]

theorem abs_sub_eq_of_ge {a b : Int} (h : b ≤ a) : |a - b| = a - b :=
  abs_of_nonneg (by omega)

theorem getElem_eq_of_idx_eq (l : List Point) {i j : Nat}
    (hi : i < l.length) (hj : j < l.length) (h : i = j) : l[i] = l[j] := by
  subst h
  rfl

/-- C6: `nearestPoint` on a sorted buffer returns `none` exactly on the
empty buffer, and otherwise some stored point whose x-extractor value is
at minimal absolute distance from the query's x-extractor value among all
stored points (it only ever inspects the two neighbours of the insertion
index, and falls back to the single existing neighbour at a boundary). -/
theorem nearestPoint_spec {s : PlotSeries} (q : Point) (hs : sortedByX s.data) :
    (s.data = [] → nearestPoint s q = none) ∧
    (s.data ≠ [] → ∃ r, nearestPoint s q = some r ∧ r ∈ s.data ∧
        ∀ t ∈ s.data, |getXVal r - getXVal q| ≤ |getXVal t - getXVal q|) := by
  have hc : sortedIndex s.data q = xCountLt s.data (getXVal q) :=
    sortedIndexVal_eq_xCountLt hs
  have hclen : xCountLt s.data (getXVal q) ≤ s.data.length := xCountLt_le_length _ _
  constructor
  · intro h
    simp [nearestPoint, hc, h, xCountLt, infLt]
  · intro hne
    have hlen0 : 0 < s.data.length := List.length_pos.mpr hne
    set v := getXVal q with hv
    set c := xCountLt s.data v with hcc
    by_cases hc0 : c = 0
    · -- no predecessor: the point at the insertion index is returned
      have hcl : c < s.data.length := by omega
      have hnp : nearestPoint s q = some s.data[c] := by
        simp only [nearestPoint, hc, ← hv, ← hcc, hc0, if_true]
        rw [List.getElem?_eq_getElem (show (0 : Nat) < s.data.length from hlen0)]
        simp [infLt]
      refine ⟨s.data[c], hnp, List.getElem_mem hcl, ?_⟩
      intro t ht
      obtain ⟨j, hj, rfl⟩ := List.mem_iff_getElem.mp ht
      have h1 : v ≤ getXVal s.data[j] := le_getX_of_xCountLt_le (v := v) hs hj (by omega)
      have h2 : v ≤ getXVal s.data[c] := le_getX_of_xCountLt_le (v := v) hs hcl (by omega)
      have h3 : getXVal s.data[c] ≤ getXVal s.data[j] := by
        rcases Nat.eq_or_lt_of_le (show c ≤ j by omega) with h | h
        · exact le_of_eq (congrArg getXVal (getElem_eq_of_idx_eq s.data hcl hj h))
        · exact le_of_lt (sorted_getX_lt hs hj h)
      rw [abs_sub_eq_of_ge h2, abs_sub_eq_of_ge h1]
      omega
    · by_cases hcl : c < s.data.length
      · -- both neighbours exist
        have hcl1 : c - 1 < s.data.length := by omega
        have hlow : getXVal s.data[c - 1] < v :=
          getX_lt_of_lt_xCountLt (v := v) hs hcl1 (by omega)
        have hhigh : v ≤ getXVal s.data[c] := le_getX_of_xCountLt_le (v := v) hs hcl (by omega)
        have hboundlow : ∀ j, ∀ hj : j < s.data.length, j < c →
            getXVal s.data[j] ≤ getXVal s.data[c - 1] := by
          intro j hj hjc
          rcases Nat.lt_trichotomy j (c - 1) with h | h | h
          · exact le_of_lt (sorted_getX_lt hs hcl1 h)
          · exact le_of_eq (congrArg getXVal (getElem_eq_of_idx_eq s.data hj hcl1 h))
          · omega
        have hboundhigh : ∀ j, ∀ hj : j < s.data.length, c ≤ j →
            getXVal s.data[c] ≤ getXVal s.data[j] := by
          intro j hj hjc
          rcases Nat.eq_or_lt_of_le hjc with h | h
          · exact le_of_eq (congrArg getXVal (getElem_eq_of_idx_eq s.data hcl hj h))
          · exact le_of_lt (sorted_getX_lt hs hj h)
        by_cases hcmp : getXVal s.data[c] - v < v - getXVal s.data[c - 1]
        · have hnp : nearestPoint s q = some s.data[c] := by
            simp only [nearestPoint, hc, ← hv, ← hcc, hc0, if_false,
              List.getElem?_eq_getElem hcl, List.getElem?_eq_getElem hcl1]
            simp [infLt, hcmp]
          refine ⟨s.data[c], hnp, List.getElem_mem hcl, ?_⟩
          intro t ht
          obtain ⟨j, hj, rfl⟩ := List.mem_iff_getElem.mp ht
          rw [abs_sub_eq_of_ge hhigh]
          rcases Nat.lt_or_ge j c with hjc | hjc
          · have h1 : getXVal s.data[j] < v := getX_lt_of_lt_xCountLt (v := v) hs hj hjc
            rw [abs_sub_eq_of_le (le_of_lt h1)]
            have := hboundlow j hj hjc
            omega
          · have h1 : v ≤ getXVal s.data[j] := le_getX_of_xCountLt_le (v := v) hs hj hjc
            rw [abs_sub_eq_of_ge h1]
            have := hboundhigh j hj hjc
            omega
        · have hnp : nearestPoint s q = some s.data[c - 1] := by
            simp only [nearestPoint, hc, ← hv, ← hcc, hc0, if_false,
              List.getElem?_eq_getElem hcl, List.getElem?_eq_getElem hcl1]
            simp [infLt, hcmp]
          refine ⟨s.data[c - 1], hnp, List.getElem_mem hcl1, ?_⟩
          intro t ht
          obtain ⟨j, hj, rfl⟩ := List.mem_iff_getElem.mp ht
          rw [abs_sub_eq_of_le (le_of_lt hlow)]
          rcases Nat.lt_or_ge j c with hjc | hjc
          · have h1 : getXVal s.data[j] < v := getX_lt_of_lt_xCountLt (v := v) hs hj hjc
            rw [abs_sub_eq_of_le (le_of_lt h1)]
            have := hboundlow j hj hjc
            omega
          · have h1 : v ≤ getXVal s.data[j] := le_getX_of_xCountLt_le (v := v) hs hj hjc
            rw [abs_sub_eq_of_ge h1]
            have := hboundhigh j hj hjc
            omega
      · -- no successor: the predecessor is returned
        have hcl1 : c - 1 < s.data.length := by omega
        have hnp : nearestPoint s q = some s.data[c - 1] := by
          simp only [nearestPoint, hc, ← hv, ← hcc, hc0, if_false,
            List.getElem?_eq_getElem hcl1,
            List.getElem?_eq_none (show s.data.length ≤ c by omega)]
          simp [infLt]
        refine ⟨s.data[c - 1], hnp, List.getElem_mem hcl1, ?_⟩
        intro t ht
        obtain ⟨j, hj, rfl⟩ := List.mem_iff_getElem.mp ht
        have h1 : getXVal s.data[j] < v := getX_lt_of_lt_xCountLt (v := v) hs hj (by omega)
        have h2 : getXVal s.data[c - 1] < v := getX_lt_of_lt_xCountLt (v := v) hs hcl1 (by omega)
        have h3 : getXVal s.data[j] ≤ getXVal s.data[c - 1] := by
          rcases Nat.lt_trichotomy j (c - 1) with h | h | h
          · exact le_of_lt (sorted_getX_lt hs hcl1 h)
          · exact le_of_eq (congrArg getXVal (getElem_eq_of_idx_eq s.data hj hcl1 h))
          · omega
        rw [abs_sub_eq_of_le (le_of_lt h1), abs_sub_eq_of_le (le_of_lt h2)]
        omega

/-! ## Counting emitted events -/

theorem countP_map_remove_isRemove (l : List Point) (k : Int) :
    (l.map (fun p => SeriesEvent.remove p k)).countP isRemoveEvent = l.length := by
  induction l with
  | nil => rfl
  | cons p t ih => simp [List.countP_cons, isRemoveEvent, ih]

theorem countP_map_remove_isReset (l : List Point) (k : Int) :
    (l.map (fun p => SeriesEvent.remove p k)).countP isResetEvent = 0 := by
  induction l with
  | nil => rfl
  | cons p t ih => simp [List.countP_cons, isResetEvent, ih]

theorem countP_addEventsFrom_isRemove (l : List Point) :
    ∀ n : Nat, (addEventsFrom n l).countP isRemoveEvent = 0 := by
  induction l with
  | nil => intro n; rfl
  | cons p t ih => intro n; simp [addEventsFrom, List.countP_cons, isRemoveEvent, ih]

theorem countP_addEventsFrom_isReset (l : List Point) :
    ∀ n : Nat, (addEventsFrom n l).countP isResetEvent = 0 := by
  induction l with
  | nil => intro n; rfl
  | cons p t ih => intro n; simp [addEventsFrom, List.countP_cons, isResetEvent, ih]

theorem countP_or_le (a b : Point → Bool) (l : List Point) :
    l.countP (fun p => a p || b p) ≤ l.countP a + l.countP b := by
  induction l with
  | nil => simp
  | cons p t ih =>
      rw [List.countP_cons, List.countP_cons, List.countP_cons]
      by_cases ha : a p = true
      · rw [if_pos (show (a p || b p) = true by rw [ha]; rfl), if_pos ha]
        by_cases hb : b p = true
        · rw [if_pos hb]; omega
        · rw [if_neg hb]; omega
      · have ha' : a p = false := by simpa using ha
        rw [if_neg ha]
        by_cases hb : b p = true
        · rw [if_pos (show (a p || b p) = true by rw [ha', hb]; rfl), if_pos hb]
          omega
        · have hb' : b p = false := by simpa using hb
          rw [if_neg (show ¬ (a p || b p) = true by rw [ha', hb']; simp), if_neg hb]
          omega

theorem countP_add_countP_le_length (a b : Point → Bool) (l : List Point)
    (h : ∀ p, ¬(a p = true ∧ b p = true)) :
    l.countP a + l.countP b ≤ l.length := by
  induction l with
  | nil => simp
  | cons p t ih =>
      rw [List.countP_cons, List.countP_cons, List.length_cons]
      have := h p
      by_cases ha : a p = true
      · have hb : ¬ b p = true := fun hb => this ⟨ha, hb⟩
        rw [if_pos ha, if_neg hb]
        omega
      · rw [if_neg ha]
        by_cases hb : b p = true
        · rw [if_pos hb]; omega
        · rw [if_neg hb]; omega

theorem countP_eq_length_of_all (a : Point → Bool) (l : List Point)
    (h : ∀ p ∈ l, a p = true) : l.countP a = l.length :=
  List.countP_eq_length.mpr h

/-! ## Concrete fixtures used by witnesses and counterexamples -/

/-- The spec's worked example: a buffer holding x values 1, 5, 10. -/
def sampleData : List Point := [⟨1, 0, 0⟩, ⟨5, 0, 1⟩, ⟨10, 0, 2⟩]

/-- A buffer state holding `sampleData` with no stats and no prior events. -/
def sampleSeries : PlotSeries := { data := sampleData, stats := none, events := [] }

/-! ## Claim theorems -/

/-- C4: starting from the empty buffer, any sequence of
`add(point, appendOnly=false)` calls leaves the points strictly ascending
by x-extractor value after every call (every prefix of the sequence is
itself such a sequence, so the invariant holds after each step). -/
theorem add_sequence_sorted (ps : List Point) :
    sortedByX (applyOps emptySeries (ps.map (fun p => SeriesOp.add p false))).data := by
  have hgen : ∀ (l : List Point) (s : PlotSeries), sortedByX s.data →
      sortedByX (applyOps s (l.map (fun p => SeriesOp.add p false))).data := by
    intro l
    induction l with
    | nil => intro s h; exact h
    | cons p t ih =>
        intro s h
        have : applyOps s ((p :: t).map (fun p => SeriesOp.add p false))
            = applyOps (add s p false) (t.map (fun p => SeriesOp.add p false)) := by
          simp [applyOps, applyOp]
        rw [this]
        exact ih _ (add_false_preserves_sorted h)
  exact hgen ps emptySeries List.Pairwise.nil

/-- C3: on a sorted buffer, inserting (appendOnly=false) a point whose
x-extractor value equals that of some stored point is a silent no-op —
the whole state, events included, is unchanged — and consequently
inserting two points with equal x value in either order leaves exactly
one point with that x value stored. -/
theorem add_duplicate_x_silent_noop (s : PlotSeries) (p q : Point)
    (hs : sortedByX s.data) (hpq : getXVal p = getXVal q) :
    ((∃ r ∈ s.data, getXVal r = getXVal p) → add s p false = s)
    ∧ ((∀ r ∈ s.data, getXVal r ≠ getXVal p) →
        add (add s p false) q false = add s p false
          ∧ (add (add s p false) q false).data.countP
              (fun r => decide (getXVal r = getXVal p)) = 1) := by
  constructor
  · intro hdup
    exact add_dup_noop hs hdup
  · intro hno
    have hins := add_insert_eq hs hno
    have hmem : p ∈ (add s p false).data := by
      rw [hins]
      exact List.mem_append_right _ (List.mem_cons_self _ _)
    have hsorted' : sortedByX (add s p false).data := add_false_preserves_sorted hs
    have hnoop2 : add (add s p false) q false = add s p false :=
      add_dup_noop hsorted' ⟨p, hmem, hpq⟩
    refine ⟨hnoop2, ?_⟩
    rw [hnoop2, hins]
    simp only [List.countP_append, List.countP_cons]
    have h1 : (s.data.take (xCountLt s.data (getXVal p))).countP
        (fun r => decide (getXVal r = getXVal p)) = 0 :=
      List.countP_eq_zero.mpr fun r hr => by
        simpa using hno r (List.take_subset _ _ hr)
    have h2 : (s.data.drop (xCountLt s.data (getXVal p))).countP
        (fun r => decide (getXVal r = getXVal p)) = 0 :=
      List.countP_eq_zero.mpr fun r hr => by
        simpa using hno r (List.drop_subset _ _ hr)
    simp [h1, h2]

/-- C3 witness: inserting x=5 into the 1/5/10 buffer is rejected wholesale,
and a fresh pair of equal-x inserts stores exactly one. -/
theorem add_duplicate_x_silent_noop_witness :
    (sortedByX sampleSeries.data ∧ getXVal (⟨5, 7, 9⟩ : Point) = getXVal (⟨5, 8, 10⟩ : Point))
    ∧ (((∃ r ∈ sampleSeries.data, getXVal r = getXVal (⟨5, 7, 9⟩ : Point)) →
          add sampleSeries ⟨5, 7, 9⟩ false = sampleSeries)
      ∧ ((∀ r ∈ sampleSeries.data, getXVal r ≠ getXVal (⟨5, 7, 9⟩ : Point)) →
          add (add sampleSeries ⟨5, 7, 9⟩ false) ⟨5, 8, 10⟩ false
              = add sampleSeries ⟨5, 7, 9⟩ false
            ∧ (add (add sampleSeries ⟨5, 7, 9⟩ false) ⟨5, 8, 10⟩ false).data.countP
                (fun r => decide (getXVal r = getXVal (⟨5, 7, 9⟩ : Point))) = 1)) :=
  ⟨⟨by decide, by decide⟩,
    add_duplicate_x_silent_noop sampleSeries ⟨5, 7, 9⟩ ⟨5, 8, 10⟩ (by decide) (by decide)⟩

/-- C8: `reset(newPoints)` with a sorted, duplicate-free seed clears the
buffer and stats, emits one `reset` event, and reseeds through the
append-only path: the stored points are exactly `newPoints` in order and
the stats are a from-scratch fold of `updateStats` over them. -/
theorem reset_seed_contract (s : PlotSeries) (ps : List Point)
    (hs : sortedByX ps) :
    (reset s (some ps)).data = ps
    ∧ (reset s (some ps)).stats = ps.foldl updateStatsF none
    ∧ (reset s (some ps)).events
        = s.events ++ SeriesEvent.reset :: addEventsFrom 0 ps := by
  rw [reset_some]
  exact ⟨rfl, rfl, rfl⟩

/-- C8 witness: reseeding an arbitrary dirty state with the 1/5/10 array. -/
theorem reset_seed_contract_witness :
    sortedByX sampleData
    ∧ ((reset { data := [⟨4, 4, 7⟩], stats := none, events := [SeriesEvent.load] }
          (some sampleData)).data = sampleData
      ∧ (reset { data := [⟨4, 4, 7⟩], stats := none, events := [SeriesEvent.load] }
          (some sampleData)).stats = sampleData.foldl updateStatsF none
      ∧ (reset { data := [⟨4, 4, 7⟩], stats := none, events := [SeriesEvent.load] }
          (some sampleData)).events
          = [SeriesEvent.load] ++ SeriesEvent.reset :: addEventsFrom 0 sampleData) :=
  ⟨by decide,
    reset_seed_contract { data := [⟨4, 4, 7⟩], stats := none, events := [SeriesEvent.load] }
      sampleData (by decide)⟩

/-- C10: removing a point that is not in a non-empty buffer is destructive:
`indexOf` yields `-1`, `splice(-1, 1)` excises the final element, and a
`remove` event carrying the unfound point and index `-1` is emitted. -/
theorem remove_absent_deletes_last (s : PlotSeries) (p : Point)
    (hp : p ∉ s.data) (hne : s.data ≠ []) :
    remove s p =
      { data := s.data.dropLast
        stats := s.stats
        events := s.events ++ [SeriesEvent.remove p (-1)] }
    ∧ (remove s p).data.length = s.data.length - 1 := by
  have h := remove_not_mem hp
  refine ⟨h, ?_⟩
  rw [h]
  simp [List.length_dropLast]

/-- C10 witness: removing an absent point from the 1/5/10 buffer drops
x=10. -/
theorem remove_absent_deletes_last_witness :
    ((⟨99, 0, 7⟩ : Point) ∉ sampleSeries.data ∧ sampleSeries.data ≠ [])
    ∧ (remove sampleSeries ⟨99, 0, 7⟩ =
        { data := sampleSeries.data.dropLast
          stats := sampleSeries.stats
          events := sampleSeries.events ++ [SeriesEvent.remove ⟨99, 0, 7⟩ (-1)] }
      ∧ (remove sampleSeries ⟨99, 0, 7⟩).data.length = sampleSeries.data.length - 1) :=
  ⟨⟨by decide, by decide⟩,
    remove_absent_deletes_last sampleSeries ⟨99, 0, 7⟩ (by decide) (by decide)⟩

/-- C6 witness: the spec's example buffer `{1,5,10}` queried at x=4. -/
theorem nearestPoint_spec_witness :
    sortedByX sampleSeries.data
    ∧ ((sampleSeries.data = [] → nearestPoint sampleSeries ⟨4, 0, 9⟩ = none)
      ∧ (sampleSeries.data ≠ [] →
          ∃ r, nearestPoint sampleSeries ⟨4, 0, 9⟩ = some r
            ∧ r ∈ sampleSeries.data
            ∧ ∀ t ∈ sampleSeries.data,
                |getXVal r - getXVal (⟨4, 0, 9⟩ : Point)|
                  ≤ |getXVal t - getXVal (⟨4, 0, 9⟩ : Point)|)) :=
  ⟨by decide, nearestPoint_spec ⟨4, 0, 9⟩ (by decide)⟩

/-- C9 witness: removing the stored point at x=5 from the 1/5/10 buffer. -/
theorem remove_mem_eq_witness :
    (⟨5, 0, 1⟩ : Point) ∈ sampleSeries.data
    ∧ ∃ j : Nat, indexOfJS sampleSeries.data ⟨5, 0, 1⟩ = (j : Int)
        ∧ j < sampleSeries.data.length
        ∧ sampleSeries.data[j]? = some ⟨5, 0, 1⟩
        ∧ (∀ k < j, sampleSeries.data[k]? ≠ some ⟨5, 0, 1⟩)
        ∧ remove sampleSeries ⟨5, 0, 1⟩ =
            { data := sampleSeries.data.take j ++ sampleSeries.data.drop (j + 1)
              stats := sampleSeries.stats
              events := sampleSeries.events
                ++ [SeriesEvent.remove ⟨5, 0, 1⟩ (j : Int)] } :=
  ⟨by decide, remove_mem_eq (by decide)⟩

/-- A two-point buffer (x values 3 and 7) witnessing the tie-break. -/
def tieSeries : PlotSeries :=
  { data := [⟨3, 0, 0⟩, ⟨7, 0, 1⟩], stats := none, events := [] }

/-- C7 counterexample: a query at x=5 is exactly equidistant from the
stored points at 3 and 7; the insertion index is 1, so the claim predicts
the successor `data[1]` (x=7), but the source evaluates
`highDistance < lowDistance` — false on a tie — and returns `lowPoint`,
the predecessor at x=3. -/
theorem nearestPoint_tie_counterexample :
    sortedIndex tieSeries.data ⟨5, 0, 9⟩ = 1
    ∧ getXVal (⟨5, 0, 9⟩ : Point) - getXVal (⟨3, 0, 0⟩ : Point)
        = getXVal (⟨7, 0, 1⟩ : Point) - getXVal (⟨5, 0, 9⟩ : Point)
    ∧ tieSeries.data[(1 : Nat)]? = some ⟨7, 0, 1⟩
    ∧ nearestPoint tieSeries ⟨5, 0, 9⟩ = some ⟨3, 0, 0⟩
    ∧ nearestPoint tieSeries ⟨5, 0, 9⟩ ≠ some ⟨7, 0, 1⟩ := by
  decide

/-- C7 (amended): when the query's x value is exactly equidistant from the
predecessor and the successor at its insertion index (both present),
`nearestPoint` returns the predecessor `data[insertIndex - 1]`, not the
successor: the strict `highDistance < lowDistance` comparison fails on the
tie and the conditional falls through to `lowPoint`. -/
theorem nearestPoint_tie_predecessor (s : PlotSeries) (q pl ph : Point)
    (hs : sortedByX s.data)
    (h0 : sortedIndex s.data q ≠ 0)
    (hlow : s.data[sortedIndex s.data q - 1]? = some pl)
    (hhigh : s.data[sortedIndex s.data q]? = some ph)
    (htie : getXVal q - getXVal pl = getXVal ph - getXVal q) :
    nearestPoint s q = some pl ∧ pl ≠ ph := by
  constructor
  · have hred : nearestPoint s q =
        if infLt (some (getXVal ph - getXVal q)) (some (getXVal q - getXVal pl))
          then some ph else some pl := by
      simp only [nearestPoint, if_neg h0, hlow, hhigh, Option.map_some']
    rw [hred]
    have hfalse : infLt (some (getXVal ph - getXVal q))
        (some (getXVal q - getXVal pl)) = false := by
      simp only [infLt, decide_eq_false_iff_not]
      omega
    rw [hfalse]
    simp
  · have hi : sortedIndex s.data q < s.data.length := by
      by_contra h
      rw [List.getElem?_eq_none (by omega)] at hhigh
      exact Option.noConfusion hhigh
    have hi1 : sortedIndex s.data q - 1 < s.data.length := by omega
    have hpl : s.data[sortedIndex s.data q - 1] = pl := by
      rw [List.getElem?_eq_getElem hi1] at hlow
      exact Option.some.inj hlow
    have hph : s.data[sortedIndex s.data q] = ph := by
      rw [List.getElem?_eq_getElem hi] at hhigh
      exact Option.some.inj hhigh
    have hlt := sorted_getX_lt hs hi (show sortedIndex s.data q - 1 < sortedIndex s.data q by omega)
    rw [hpl, hph] at hlt
    intro heq
    rw [heq] at hlt
    exact lt_irrefl _ hlt

/-- C7 witness: the 3/7 buffer queried at the midpoint x=5. -/
theorem nearestPoint_tie_predecessor_witness :
    (sortedByX tieSeries.data
      ∧ sortedIndex tieSeries.data ⟨5, 0, 9⟩ ≠ 0
      ∧ tieSeries.data[sortedIndex tieSeries.data ⟨5, 0, 9⟩ - 1]? = some ⟨3, 0, 0⟩
      ∧ tieSeries.data[sortedIndex tieSeries.data ⟨5, 0, 9⟩]? = some ⟨7, 0, 1⟩
      ∧ getXVal (⟨5, 0, 9⟩ : Point) - getXVal (⟨3, 0, 0⟩ : Point)
          = getXVal (⟨7, 0, 1⟩ : Point) - getXVal (⟨5, 0, 9⟩ : Point))
    ∧ (nearestPoint tieSeries ⟨5, 0, 9⟩ = some ⟨3, 0, 0⟩
      ∧ (⟨3, 0, 0⟩ : Point) ≠ (⟨7, 0, 1⟩ : Point)) :=
  ⟨⟨by decide, by decide, by decide, by decide, by decide⟩,
    nearestPoint_tie_predecessor tieSeries ⟨5, 0, 9⟩ ⟨3, 0, 0⟩ ⟨7, 0, 1⟩
      (by decide) (by decide) (by decide) (by decide) (by decide)⟩

/-- The operation sequence add, add, remove that strands the stats. -/
def staleStatsOps : List SeriesOp :=
  [SeriesOp.add ⟨0, 0, 0⟩ false, SeriesOp.add ⟨1, 5, 1⟩ false,
    SeriesOp.remove ⟨1, 5, 1⟩]

/-- C5 counterexample: after add(y=0), add(y=5), remove(the y=5 point),
the buffer holds only the y=0 point but `stats.maxValue` is still 5 —
`remove` performs no statistics recomputation, so the claimed invariant
fails on sequences containing `remove`. -/
theorem remove_leaves_stale_stats :
    (applyOps emptySeries staleStatsOps).data = [⟨0, 0, 0⟩]
    ∧ (applyOps emptySeries staleStatsOps).stats =
        some { minValue := 0, minPoint := ⟨0, 0, 0⟩
               maxValue := 5, maxPoint := ⟨1, 5, 1⟩ }
    ∧ (∀ p ∈ (applyOps emptySeries staleStatsOps).data, getYVal p ≠ 5)
    ∧ ¬ statsCorrect (applyOps emptySeries staleStatsOps) := by
  decide

/-- C5 (amended): for every operation sequence built from `add`, `reset`
and `purgeRecordsOutsideRange` — i.e. avoiding bare `remove`, which never
touches `stats` — the stats, whenever present, carry the true minimum and
maximum y-extractor value over the currently stored points (and are absent
exactly when the buffer is empty). -/
theorem stats_correct_without_remove (ops : List SeriesOp)
    (h : ∀ op ∈ ops, op.isRemoveOp = false) :
    statsCorrect (applyOps emptySeries ops) :=
  statsCorrect_applyOps ops emptySeries rfl h

/-- A remove-free workout: sorted and unsorted adds, a purge, a reset. -/
def mixedOps : List SeriesOp :=
  [SeriesOp.add ⟨5, 2, 0⟩ false, SeriesOp.add ⟨9, 8, 1⟩ true,
    SeriesOp.add ⟨1, 4, 2⟩ false, SeriesOp.purge ⟨0, 6⟩,
    SeriesOp.reset (some [⟨2, 3, 5⟩, ⟨4, 1, 6⟩]), SeriesOp.add ⟨6, 9, 7⟩ false]

/-- C5 witness: the remove-free workout ends with truthful stats. -/
theorem stats_correct_without_remove_witness :
    (∀ op ∈ mixedOps, op.isRemoveOp = false)
    ∧ statsCorrect (applyOps emptySeries mixedOps) :=
  ⟨by decide, stats_correct_without_remove mixedOps (by decide)⟩

/-! ## What survives a purge -/

theorem slice_retention {data : List Point} {v1 v2 : Int} (hs : sortedByX data)
    (K : Nat) (hK : xCountLt data v2 + 1 - xCountLt data v1 ≤ K) :
    (∀ p ∈ data, v1 ≤ getXVal p → getXVal p ≤ v2 →
        p ∈ (data.drop (xCountLt data v1)).take K)
    ∧ (∀ p ∈ (data.drop (xCountLt data v1)).take K,
        p ∈ data ∧ v1 ≤ getXVal p) := by
  set c1 := xCountLt data v1 with hc1
  set cm := xCountLt data v2 with hcm
  constructor
  · intro p hp hmin hmax
    obtain ⟨j, hj, rfl⟩ := List.mem_iff_getElem.mp hp
    have hjc1 : c1 ≤ j := by
      by_contra hlt
      push_neg at hlt
      exact absurd hmin (not_le.mpr (getX_lt_of_lt_xCountLt (v := v1) hs hj hlt))
    have hjcm : j ≤ cm := by
      by_contra hgt
      push_neg at hgt
      have hcmlen : cm < data.length := lt_trans hgt hj
      have h5 : v2 ≤ getXVal data[cm] :=
        le_getX_of_xCountLt_le (v := v2) hs hcmlen (le_refl _)
      have h6 : getXVal data[cm] < getXVal data[j] := sorted_getX_lt hs hj hgt
      omega
    have hidrop : j - c1 < (data.drop c1).length := by
      rw [List.length_drop]
      omega
    have hitake : j - c1 < ((data.drop c1).take K).length := by
      rw [List.length_take]
      simp only [lt_min_iff]
      exact ⟨by omega, hidrop⟩
    have e1 : ((data.drop c1).take K)[j - c1]
        = (data.drop c1)[j - c1] := List.getElem_take _
    have e2 : (data.drop c1)[j - c1] = data[c1 + (j - c1)] :=
      List.getElem_drop _
    have e3 : data[c1 + (j - c1)] = data[j] :=
      getElem_eq_of_idx_eq data (by omega) hj (by omega)
    have := List.getElem_mem hitake
    rw [e1, e2, e3] at this
    exact this
  · intro p hp
    obtain ⟨i, hi, rfl⟩ := List.mem_iff_getElem.mp hp
    have hidrop : i < (data.drop c1).length := by
      have := hi
      rw [List.length_take] at this
      omega
    have hilen : c1 + i < data.length := by
      rw [List.length_drop] at hidrop
      omega
    have e1 : ((data.drop c1).take K)[i]
        = (data.drop c1)[i] := List.getElem_take _
    have e2 : (data.drop c1)[i] = data[c1 + i] := List.getElem_drop _
    rw [e1, e2]
    exact ⟨List.getElem_mem hilen,
      le_getX_of_xCountLt_le (v := v1) hs hilen (by omega)⟩

/-- C1 counterexample: purging the 1/5/10 buffer to the range [0,6] leaves
the buffer unchanged, so the point at x=10 survives although its
x-extractor value is outside [0,6] (the claim requires every remaining
point to lie within the range). -/
theorem purge_leaves_point_outside_range :
    (purgeRecordsOutsideRange sampleSeries ⟨0, 6⟩).data = sampleData
    ∧ (⟨10, 0, 2⟩ : Point) ∈ (purgeRecordsOutsideRange sampleSeries ⟨0, 6⟩).data
    ∧ ¬ (getXVal (⟨10, 0, 2⟩ : Point) ≤ (6 : Int)) := by
  decide

/-- C1 (amended): on a sorted buffer, a purge keeps exactly one contiguous
slice that starts at `startIndex` (the insertion index of `min`): on the
reset path the slice is `[startIndex, endIndex)`; on the
individual-removal (and the trivial) path the slice is
`[startIndex, startIndex + endIndex)` — the suffix slice is taken from the
already-shrunk array, so up to `startIndex` points beyond `endIndex` also
survive.  Consequently every point whose x value lies within
`[min, max]` before the call is still present afterwards and every
surviving point comes from the old buffer and has x value at least `min`—
but points with x value above `max` can survive (the point at the
insertion index of `max` always does, and more on the removal path). -/
theorem purge_keeps_slice (s : PlotSeries) (range : Range)
    (hs : sortedByX s.data) :
    (purgeRecordsOutsideRange s range).data
        = (s.data.drop (xCountLt s.data range.min)).take
            (if 1000 ≤ xCountLt s.data range.min
                  + (s.data.length - xCountLt s.data range.max)
              then xCountLt s.data range.max + 1 - xCountLt s.data range.min
              else xCountLt s.data range.max + 1)
    ∧ (∀ p ∈ s.data, range.min ≤ getXVal p → getXVal p ≤ range.max →
        p ∈ (purgeRecordsOutsideRange s range).data)
    ∧ (∀ p ∈ (purgeRecordsOutsideRange s range).data,
        p ∈ s.data ∧ range.min ≤ getXVal p) := by
  have hc1 : xCountLt s.data range.min ≤ s.data.length := xCountLt_le_length _ _
  have hcm : xCountLt s.data range.max ≤ s.data.length := xCountLt_le_length _ _
  have hdata : (purgeRecordsOutsideRange s range).data
      = (s.data.drop (xCountLt s.data range.min)).take
          (if 1000 ≤ xCountLt s.data range.min
                + (s.data.length - xCountLt s.data range.max)
            then xCountLt s.data range.max + 1 - xCountLt s.data range.min
            else xCountLt s.data range.max + 1) := by
    rcases Nat.lt_or_ge
        (xCountLt s.data range.min + (s.data.length - xCountLt s.data range.max))
        1000 with hsmall | hbig
    · rcases Nat.eq_zero_or_pos
          (xCountLt s.data range.min + (s.data.length - xCountLt s.data range.max))
          with h0 | hpos
      · rw [purge_eq_noop hs h0, if_neg (by omega)]
        have hc10 : xCountLt s.data range.min = 0 := by omega
        have hcml : xCountLt s.data range.max = s.data.length := by omega
        rw [hc10, hcml, List.drop_zero, List.take_of_length_le (by omega)]
      · rw [purge_eq_small hs hpos hsmall, if_neg (by omega)]
    · rw [purge_eq_reset hs hbig, reset_some, if_pos hbig]
  obtain ⟨hret, hcont⟩ := @slice_retention s.data range.min range.max hs
    (if 1000 ≤ xCountLt s.data range.min
          + (s.data.length - xCountLt s.data range.max)
      then xCountLt s.data range.max + 1 - xCountLt s.data range.min
      else xCountLt s.data range.max + 1)
    (by split_ifs <;> omega)
  refine ⟨hdata, ?_, ?_⟩
  · intro p hp h1 h2
    rw [hdata]
    exact hret p hp h1 h2
  · intro p hp
    rw [hdata] at hp
    exact hcont p hp

/-- C1 witness: the 1/5/10 buffer purged to [0,6]. -/
theorem purge_keeps_slice_witness :
    sortedByX sampleSeries.data
    ∧ ((purgeRecordsOutsideRange sampleSeries ⟨0, 6⟩).data
          = (sampleSeries.data.drop (xCountLt sampleSeries.data 0)).take
              (if 1000 ≤ xCountLt sampleSeries.data 0
                    + (sampleSeries.data.length - xCountLt sampleSeries.data 6)
                then xCountLt sampleSeries.data 6 + 1 - xCountLt sampleSeries.data 0
                else xCountLt sampleSeries.data 6 + 1)
      ∧ (∀ p ∈ sampleSeries.data, (0 : Int) ≤ getXVal p → getXVal p ≤ (6 : Int) →
          p ∈ (purgeRecordsOutsideRange sampleSeries ⟨0, 6⟩).data)
      ∧ (∀ p ∈ (purgeRecordsOutsideRange sampleSeries ⟨0, 6⟩).data,
          p ∈ sampleSeries.data ∧ (0 : Int) ≤ getXVal p)) :=
  ⟨by decide, purge_keeps_slice sampleSeries ⟨0, 6⟩ (by decide)⟩

/-! ## The purge strategy threshold -/

/-- A point's x-extractor value lies strictly outside `[min, max]`. -/
def outsideRange (range : Range) (p : Point) : Bool :=
  decide (getXVal p < range.min) || decide (range.max < getXVal p)

/-- C2 (amended): the strategy threshold is computed from
`pointsToRemove = startIndex + (length - endIndex + 1)`, which counts the
points with x below `min` plus those with x at least `max` — exceeding the
true out-of-range count by one exactly when some stored point's x value
equals `max` (at most one, by the sort invariant).  Proved here:
(i) if exactly 999 points are out of range and no stored point has
x ≥ max, the purge emits exactly 999 `remove` events and no `reset`
event; (ii) if 1000 or more points are out of range, the purge emits
exactly one `reset` event and no `remove` events, reseeding with the
retained window.  (With 999 out of range and a stored point exactly at
`max`, `pointsToRemove` reaches 1000 and the reset strategy fires
instead — see the counterexample.) -/
theorem purge_threshold_behaviour (s : PlotSeries) (range : Range)
    (hs : sortedByX s.data) :
    ((s.data.countP (outsideRange range) = 999
        ∧ (∀ p ∈ s.data, getXVal p < range.max)) →
      (purgeRecordsOutsideRange s range).events.countP isRemoveEvent
          = s.events.countP isRemoveEvent + 999
        ∧ (purgeRecordsOutsideRange s range).events.countP isResetEvent
          = s.events.countP isResetEvent)
    ∧ (1000 ≤ s.data.countP (outsideRange range) →
      (purgeRecordsOutsideRange s range).events.countP isRemoveEvent
          = s.events.countP isRemoveEvent
        ∧ (purgeRecordsOutsideRange s range).events.countP isResetEvent
          = s.events.countP isResetEvent + 1
        ∧ (purgeRecordsOutsideRange s range).data
          = (s.data.drop (xCountLt s.data range.min)).take
              (xCountLt s.data range.max + 1 - xCountLt s.data range.min)) := by
  have hc1len : xCountLt s.data range.min ≤ s.data.length := xCountLt_le_length _ _
  have hcmlen : xCountLt s.data range.max ≤ s.data.length := xCountLt_le_length _ _
  constructor
  · rintro ⟨hout, hall⟩
    have hcm : xCountLt s.data range.max = s.data.length :=
      countP_eq_length_of_all _ _ (fun p hp => decide_eq_true (hall p hp))
    have hc1 : xCountLt s.data range.min = 999 := by
      rw [← hout]
      refine (List.countP_congr ?_).symm
      intro p hp
      have hmx : decide (range.max < getXVal p) = false :=
        decide_eq_false (by have := hall p hp; omega)
      simp [outsideRange, hmx]
    rw [purge_eq_small hs (by omega) (by omega)]
    have hsuffix : (s.data.drop (xCountLt s.data range.min)).drop
        (xCountLt s.data range.max + 1) = [] :=
      List.drop_eq_nil_of_le (by rw [List.length_drop]; omega)
    have hpre : (s.data.take (xCountLt s.data range.min)).length = 999 := by
      rw [List.length_take]
      omega
    simp only [hsuffix, List.map_nil, List.append_nil, List.countP_append,
      countP_map_remove_isRemove, countP_map_remove_isReset, hpre]
    simp
  · intro hbig
    have e1 : xCountLt s.data range.min
        = s.data.countP (fun p => decide (getXVal p < range.min)) := rfl
    have e2 : xCountLt s.data range.max
        = s.data.countP (fun p => decide (getXVal p < range.max)) := rfl
    have hor : s.data.countP (outsideRange range)
        ≤ s.data.countP (fun p => decide (getXVal p < range.min))
          + s.data.countP (fun p => decide (range.max < getXVal p)) := by
      have := countP_or_le (fun p => decide (getXVal p < range.min))
        (fun p => decide (range.max < getXVal p)) s.data
      have heq : s.data.countP (outsideRange range)
          = s.data.countP (fun p =>
              decide (getXVal p < range.min) || decide (range.max < getXVal p)) := by
        refine List.countP_congr ?_
        intro p hp
        simp [outsideRange]
      omega
    have hdisj : s.data.countP (fun p => decide (range.max < getXVal p))
        + s.data.countP (fun p => decide (getXVal p < range.max))
        ≤ s.data.length := by
      refine countP_add_countP_le_length _ _ _ ?_
      intro p
      rintro ⟨h1, h2⟩
      simp only [decide_eq_true_eq] at h1 h2
      omega
    have hT : 1000 ≤ xCountLt s.data range.min
        + (s.data.length - xCountLt s.data range.max) := by
      omega
    rw [purge_eq_reset hs hT, reset_some]
    refine ⟨?_, ?_, rfl⟩
    · simp [List.countP_append, List.countP_cons, countP_addEventsFrom_isRemove,
        isRemoveEvent]
    · simp [List.countP_append, List.countP_cons, countP_addEventsFrom_isReset,
        isResetEvent]

/-- 999 points at x = 0..998 followed by one point at x = 1000: with the
range `{min := 1000, max := 1000}` exactly 999 points are out of range,
yet `pointsToRemove` computes to 1000. -/
def purgeResetData : List Point :=
  (List.range 999).map (fun (i : Nat) => (⟨(i : Int), 0, i⟩ : Point)) ++ [⟨1000, 0, 999⟩]

/-- Buffer state over `purgeResetData`. -/
def purgeResetSeries : PlotSeries :=
  { data := purgeResetData, stats := none, events := [] }

/-- 999 points at x = 0..998 followed by one point at x = 2000: with the
range `{min := 2000, max := 2500}` exactly 999 points are out of range and
no point reaches `max`. -/
def purgeSmallData : List Point :=
  (List.range 999).map (fun (i : Nat) => (⟨(i : Int), 0, i⟩ : Point)) ++ [⟨2000, 0, 999⟩]

/-- Buffer state over `purgeSmallData`. -/
def purgeSmallSeries : PlotSeries :=
  { data := purgeSmallData, stats := none, events := [] }

theorem range_map_append_sorted (k : Int) (hk : 999 ≤ k) :
    sortedByX ((List.range 999).map (fun (i : Nat) => (⟨(i : Int), 0, i⟩ : Point))
      ++ [⟨k, 0, 999⟩]) := by
  refine List.pairwise_append.mpr ⟨?_, ?_, ?_⟩
  · refine List.pairwise_map.mpr ?_
    refine (List.pairwise_lt_range 999).imp ?_
    intro a b hab
    simp only [getXVal]
    exact_mod_cast hab
  · simp [sortedByX]
  · intro a ha b hb
    simp only [List.mem_singleton] at hb
    subst hb
    obtain ⟨i, hi, rfl⟩ := List.mem_map.mp ha
    have : i < 999 := List.mem_range.mp hi
    simp only [getXVal]
    omega

theorem purgeResetData_sorted : sortedByX purgeResetData :=
  range_map_append_sorted 1000 (by omega)

theorem purgeSmallData_sorted : sortedByX purgeSmallData :=
  range_map_append_sorted 2000 (by omega)

/-- Counting over the 999-plus-one fixtures without evaluating them. -/
theorem countP_fixture (pred : Point → Bool) (k : Int) (kid : Nat)
    (hall : ∀ i : Nat, i < 999 → pred ⟨(i : Int), 0, i⟩ = true)
    (hlast : pred ⟨k, 0, kid⟩ = false) :
    (List.map (fun (i : Nat) => (⟨(i : Int), 0, i⟩ : Point)) (List.range 999)
      ++ [(⟨k, 0, kid⟩ : Point)]).countP pred = 999 := by
  rw [List.countP_append, List.countP_map]
  have h1 : (List.range 999).countP
      (pred ∘ fun (i : Nat) => (⟨(i : Int), 0, i⟩ : Point)) = 999 := by
    have hall' : ∀ a ∈ List.range 999,
        (pred ∘ fun (i : Nat) => (⟨(i : Int), 0, i⟩ : Point)) a = true :=
      fun a ha => hall a (List.mem_range.mp ha)
    rw [List.countP_eq_length.mpr hall', List.length_range]
  rw [h1]
  simp [hlast]

theorem purgeResetData_length : purgeResetData.length = 1000 := by
  simp [purgeResetData]

theorem purgeResetData_xCountLt : xCountLt purgeResetData 1000 = 999 :=
  countP_fixture _ 1000 999
    (fun i hi => decide_eq_true (by simp only [getXVal]; omega))
    (by decide)

/-- The range `{min := 1000, max := 1000}` used by the counterexample. -/
def resetRange : Range := ⟨1000, 1000⟩

/-- The range `{min := 2000, max := 2500}` used by the witness. -/
def smallRange : Range := ⟨2000, 2500⟩

theorem purgeResetData_countP_outside :
    purgeResetData.countP (outsideRange resetRange) = 999 := by
  refine countP_fixture _ 1000 999 ?_ (by decide)
  intro i hi
  simp only [outsideRange, getXVal, Bool.or_eq_true, decide_eq_true_eq]
  left
  rw [show resetRange.min = 1000 from rfl]
  omega

theorem purgeSmallData_countP_outside :
    purgeSmallData.countP (outsideRange smallRange) = 999 := by
  refine countP_fixture _ 2000 999 ?_ (by decide)
  intro i hi
  simp only [outsideRange, getXVal, Bool.or_eq_true, decide_eq_true_eq]
  left
  rw [show smallRange.min = 2000 from rfl]
  omega

/-- C2 counterexample: a sorted buffer with exactly 999 out-of-range
points (999 below `min`, and the last point exactly at `max = 1000`).
The claim predicts 999 `remove` events; instead `pointsToRemove` evaluates
to 1000 (the point at `max` is counted although it is retained), so the
reset strategy fires: one `reset` event and no `remove` events. -/
theorem purge_999_outside_emits_reset :
    sortedByX purgeResetSeries.data
    ∧ purgeResetSeries.data.countP (outsideRange resetRange) = 999
    ∧ (purgeRecordsOutsideRange purgeResetSeries resetRange).events.countP
        isRemoveEvent = 0
    ∧ (purgeRecordsOutsideRange purgeResetSeries resetRange).events.countP
        isResetEvent = 1 := by
  have e : purgeResetSeries.data = purgeResetData := rfl
  have em : resetRange.min = 1000 := rfl
  have ex : resetRange.max = 1000 := rfl
  have hT : 1000 ≤ xCountLt purgeResetSeries.data resetRange.min
      + (purgeResetSeries.data.length
        - xCountLt purgeResetSeries.data resetRange.max) := by
    rw [e, em, ex, purgeResetData_xCountLt, purgeResetData_length]
  have hpr := @purge_eq_reset purgeResetSeries resetRange purgeResetData_sorted hT
  refine ⟨purgeResetData_sorted, purgeResetData_countP_outside, ?_, ?_⟩
  · rw [hpr, reset_some]
    simp [List.countP_append, List.countP_cons, isRemoveEvent,
      countP_addEventsFrom_isRemove, purgeResetSeries]
  · rw [hpr, reset_some]
    simp [List.countP_append, List.countP_cons, isResetEvent,
      countP_addEventsFrom_isReset, purgeResetSeries]

/-- C2 witness: a sorted buffer with exactly 999 out-of-range points, none
at or above `max`, exercising the individual-removal arm; the reset arm's
antecedent is false at this input and holds vacuously. -/
theorem purge_threshold_behaviour_witness :
    (sortedByX purgeSmallSeries.data
      ∧ purgeSmallSeries.data.countP (outsideRange smallRange) = 999
      ∧ (∀ p ∈ purgeSmallSeries.data, getXVal p < smallRange.max))
    ∧ (((purgeSmallSeries.data.countP (outsideRange smallRange) = 999
          ∧ (∀ p ∈ purgeSmallSeries.data, getXVal p < smallRange.max)) →
        (purgeRecordsOutsideRange purgeSmallSeries smallRange).events.countP
            isRemoveEvent
            = purgeSmallSeries.events.countP isRemoveEvent + 999
          ∧ (purgeRecordsOutsideRange purgeSmallSeries smallRange).events.countP
              isResetEvent
            = purgeSmallSeries.events.countP isResetEvent)
      ∧ (1000 ≤ purgeSmallSeries.data.countP (outsideRange smallRange) →
        (purgeRecordsOutsideRange purgeSmallSeries smallRange).events.countP
            isRemoveEvent
            = purgeSmallSeries.events.countP isRemoveEvent
          ∧ (purgeRecordsOutsideRange purgeSmallSeries smallRange).events.countP
              isResetEvent
            = purgeSmallSeries.events.countP isResetEvent + 1
          ∧ (purgeRecordsOutsideRange purgeSmallSeries smallRange).data
            = (purgeSmallSeries.data.drop
                  (xCountLt purgeSmallSeries.data smallRange.min)).take
                (xCountLt purgeSmallSeries.data smallRange.max + 1
                  - xCountLt purgeSmallSeries.data smallRange.min))) := by
  have hall : ∀ p ∈ purgeSmallSeries.data, getXVal p < smallRange.max := by
    intro p hp
    rcases List.mem_append.mp hp with h | h
    · obtain ⟨i, hi, rfl⟩ := List.mem_map.mp h
      have hi9 : i < 999 := List.mem_range.mp hi
      rw [show smallRange.max = 2500 from rfl]
      simp only [getXVal]
      omega
    · simp only [List.mem_singleton] at h
      subst h
      decide
  exact ⟨⟨purgeSmallData_sorted, purgeSmallData_countP_outside, hall⟩,
    purge_threshold_behaviour purgeSmallSeries smallRange purgeSmallData_sorted⟩
